import Mathlib

/-!
# Verification of the `nltk_lite.tag.hmm` hidden Markov model module

Shallow embedding of `src/nltk_lite/tag/hmm.py`.

All probability computations in the source run in log space over machine
floats, using the sentinel constant `_NINF = -1e300` as the "log of zero"
(the module comment documents it as a portable stand-in for negative
infinity).  This development embeds those computations in the probability
domain over `ℚ`: a log-space value `v` is represented by its idealised
exponential `exp v`, so

  * the sentinel `_NINF` is represented by `0`,
  * log-space addition of values (Python `+` on log-probs) becomes
    multiplication,
  * `_log_add` (log-sum-exp) becomes addition, computed through the very
    same max-rescaling control flow as the source,
  * log-space subtraction (the Baum-Welch re-estimation step) becomes
    division,
  * comparisons transport unchanged along the monotone map `exp`.

This transport is exact: under IEEE double semantics `exp _NINF = 0` and
adding `_NINF` absorbs, which is precisely the arithmetic of the absorbing
element `0`.  Real logarithms (`Real.log`) appear only where the source
manipulates a log value additively on its own — the entropy formula and
the EM convergence test — applied to the rational probability-domain
values.

Fallible operations (indexing an empty sequence, the inverse-CDF sampling
walk, dictionary lookups) return `Option`, with `none` marking a raised
Python exception.

Distribution objects (`ProbDistI`, `ConditionalProbDistI`,
`MutableProbDist`, `FreqDist`, the estimators) live in
`nltk_lite.probability`, which is not part of the sources; they are
modelled from the spec (section 6) as plain functions into `ℚ`, as flagged
at each such definition.
-/

set_option linter.unusedSectionVars false

variable {σ κ : Type} [DecidableEq σ] [DecidableEq κ]

/-- The HMM parameter record (`HiddenMarkovModel.__init__`, hmm.py lines
90-116).  Distributions are probability-domain functions: `priors s`
represents `exp (self._priors.logprob s)`, `transitions s s'` represents
`exp (self._transitions[s].logprob s')`, `outputs s x` represents
`exp (self._outputs[s].logprob x)`. -/
structure HMM (σ κ : Type) where
  symbols : List κ
  states : List σ
  transitions : σ → σ → ℚ
  outputs : σ → κ → ℚ
  priors : σ → ℚ

/-- `_log_add(*values)` (hmm.py lines 772-783) in the probability domain:
the maximum is taken exactly as in the source (Python `max` over a
non-empty argument tuple), the guard `x > _NINF` becomes `0 < x`, the
accumulation `sum_diffs += exp(value - x)` becomes `acc + w / x`, and the
final `x + log(sum_diffs)` becomes `x * sum_diffs`.  When the maximum
equals the sentinel (here `0`) it is returned directly, without touching
the summands. -/
def log_add (values : List ℚ) : ℚ :=
  match values with
  | [] => 0
  | v :: vs =>
    let x := vs.foldl max v
    if 0 < x then x * ((v :: vs).foldl (fun acc w => acc + w / x) 0) else x

/-- Row `alpha[0, :]` of the forward matrix (hmm.py lines 471-474):
`alpha[0, i] = priors.logprob(state) + outputs[state].logprob(symbol)`. -/
def forwardInit (m : HMM σ κ) (x : κ) : List ℚ :=
  m.states.map fun s => m.priors s * m.outputs s x

/-- One step of the forward recursion (hmm.py lines 476-483): row `t` from
row `t-1`.  The inner loop starts from `_NINF` (here `0`) and `_log_add`s
`alpha[t-1, j] + transitions[sj].logprob(si)`, then adds
`outputs[si].logprob(symbol)`. -/
def forwardStep (m : HMM σ κ) (prev : List ℚ) (x : κ) : List ℚ :=
  m.states.map fun si =>
    ((m.states.zip prev).foldl (fun acc p => acc + p.2 * m.transitions p.1 si) 0)
      * m.outputs si x

/-- The list of forward rows starting from row `r`, consuming the symbols
after time `0`. -/
def forwardAux (m : HMM σ κ) (r : List ℚ) : List κ → List (List ℚ)
  | [] => [r]
  | x :: xs => r :: forwardAux m (forwardStep m r x) xs

/-- The full forward matrix `alpha` as a list of `T` rows of length `N`
(empty for an empty sequence). -/
def alphaList (m : HMM σ κ) : List κ → List (List ℚ)
  | [] => []
  | x :: rest => forwardAux m (forwardInit m x) rest

/-- `HiddenMarkovModel._forward_probability` (hmm.py lines 454-486).  On an
empty sequence the source evaluates `unlabelled_sequence[0]` (line 471) and
raises `IndexError`, modelled by `none`. -/
def forwardProbability (m : HMM σ κ) (seq : List κ) : Option (List (List ℚ)) :=
  match seq with
  | [] => none
  | _ :: _ => some (alphaList m seq)

/-- One step of the backward recursion (hmm.py lines 509-517): row `t` from
row `t+1`, where `x` is the symbol at time `t+1`.  The inner loop starts
from `_NINF` (here `0`) and `_log_add`s
`transitions[si].logprob(sj) + outputs[sj].logprob(symbol) + beta[t+1, j]`. -/
def backwardStep (m : HMM σ κ) (next : List ℚ) (x : κ) : List ℚ :=
  m.states.map fun si =>
    (m.states.zip next).foldl
      (fun acc p => acc + m.transitions si p.1 * m.outputs p.1 x * p.2) 0

/-- The backward row at time `t`, given the list of symbols strictly after
time `t`.  The base row is `beta[T-1, :] = log 1` (hmm.py line 506), i.e.
all ones in the probability domain. -/
def betaSuffix (m : HMM σ κ) : List κ → List ℚ
  | [] => m.states.map fun _ => 1
  | y :: ys => backwardStep m (betaSuffix m ys) y

/-- The full backward matrix `beta` as a list of `T` rows: row `t` is
`betaSuffix` of the symbols after `t`. -/
def betaList (m : HMM σ κ) : List κ → List (List ℚ)
  | [] => []
  | _ :: rest => betaSuffix m rest :: betaList m rest

/-- `HiddenMarkovModel._backward_probability` (hmm.py lines 488-519).  On an
empty sequence the assignment `beta[T-1, :] = log(1)` (line 506) indexes
row `-1` of a 0-row array and raises `IndexError`, modelled by `none`. -/
def backwardProbability (m : HMM σ κ) (seq : List κ) : Option (List (List ℚ)) :=
  match seq with
  | [] => none
  | _ :: _ => some (betaList m seq)

/-- The running maximum of the Viterbi inner loops (hmm.py lines 218-223
and 228-232): `best = None`, then for each candidate
`if not best or va > best[0]: best = (va, si)`.  A strictly larger value
replaces the current best; on ties the earlier candidate is kept. -/
def viterbiMax (l : List (ℚ × σ)) : Option (ℚ × σ) :=
  l.foldl
    (fun best c =>
      match best with
      | none => some c
      | some b => if b.1 < c.1 then some c else some b)
    none

/-- Lookup in a back-pointer row, modelling the dictionary access
`B[t, current]` (hmm.py line 238); the states are pairwise distinct, so
first-match lookup agrees with the Python dict. -/
def dictGet (row : List (σ × σ)) (s : σ) : Option σ :=
  (row.find? fun p => decide (p.1 = s)).map Prod.snd

/-- The main Viterbi loop (hmm.py lines 214-225): starting from row `V`,
consume the remaining symbols, producing the final score row and the
back-pointer rows for times `1 .. T-1` (in time order).  Each row entry is
`(best[0] + output_logprob, (sj, best[1]))`; `best[0]` on an empty
candidate list (no states) raises in Python, modelled by `none`. -/
def viterbiFold (m : HMM σ κ) : List ℚ → List κ → Option (List ℚ × List (List (σ × σ)))
  | V, [] => some (V, [])
  | V, x :: xs =>
    match m.states.mapM (fun sj =>
        (viterbiMax ((m.states.zip V).map fun p => (p.2 * m.transitions p.1 sj, p.1))).map
          fun b => (b.1 * m.outputs sj x, (sj, b.2))) with
    | none => none
    | some row =>
      match viterbiFold m (row.map Prod.fst) xs with
      | none => none
      | some r => some (r.1, (row.map Prod.snd) :: r.2)

/-- Back-pointer traversal (hmm.py lines 235-241): the rows are given
latest-first, and the path is accumulated latest-first exactly as the
source builds `sequence` before reversing it. -/
def backtrackAcc : σ → List (List (σ × σ)) → Option (List σ)
  | c, [] => some [c]
  | c, row :: older =>
    match dictGet row c with
    | none => none
    | some lastSt =>
      match backtrackAcc lastSt older with
      | none => none
      | some rest => some (c :: rest)

/-- `HiddenMarkovModel.best_path` (hmm.py lines 189-243).  On an empty
sequence the source evaluates `unlabelled_sequence[0]` (line 207) and
raises `IndexError`, modelled by `none`. -/
def bestPath (m : HMM σ κ) (seq : List κ) : Option (List σ) :=
  match seq with
  | [] => none
  | x0 :: rest =>
    let V0 := m.states.map fun s => m.priors s * m.outputs s x0
    match viterbiFold m V0 rest with
    | none => none
    | some vr =>
      match viterbiMax ((m.states.zip vr.1).map fun p => (p.2, p.1)) with
      | none => none
      | some b =>
        match backtrackAcc b.2 vr.2.reverse with
        | none => none
        | some s => some s.reverse

/-- The real logarithm of a probability-domain value: `qlog` recovers the
log-space float that the value represents. -/
noncomputable def qlog (q : ℚ) : ℝ := Real.log (q : ℝ)

/-- `HiddenMarkovModel.entropy` (hmm.py lines 291-355).  The posterior
weights `exp(alpha + beta - normalisation)` are the rational values
`a * b / Z`; the log factors multiplying them are real logarithms of the
probability-domain parameters.  The computation first builds `alpha`
(line 325), so an empty sequence raises inside `_forward_probability`,
modelled by `none`. -/
noncomputable def entropy (m : HMM σ κ) (seq : List κ) : Option ℝ :=
  match forwardProbability m seq, backwardProbability m seq with
  | some A, some B =>
    let T := seq.length
    let Z : ℚ := log_add (A.getD (T - 1) [])
    let post : ℕ → ℕ → ℚ := fun t i => (A.getD t []).getD i 0 * (B.getD t []).getD i 0 / Z
    let pairPost : ℕ → ℕ × σ → ℕ × σ → κ → ℚ := fun t0 p0 p1 y =>
      (A.getD t0 []).getD p0.1 0 * m.transitions p0.2 p1.2 * m.outputs p1.2 y
        * (B.getD (t0 + 1) []).getD p1.1 0 / Z
    let eStart : ℝ :=
      (m.states.enum.map fun p => (post 0 p.1 : ℝ) * qlog (m.priors p.2)).sum
    let eTrans : ℝ :=
      ((List.range (T - 1)).map fun t0 =>
        (m.states.enum.map fun p0 =>
          (m.states.enum.map fun p1 =>
            ((seq.get? (t0 + 1)).map fun y =>
              (pairPost t0 p0 p1 y : ℝ) * qlog (m.transitions p0.2 p1.2)).getD 0).sum).sum).sum
    let eEmit : ℝ :=
      (seq.enum.map fun tx =>
        (m.states.enum.map fun p => (post tx.1 p.1 : ℝ) * qlog (m.outputs p.2 tx.2)).sum).sum
    some (Real.log (Z : ℝ) - eStart - eTrans - eEmit)
  | _, _ => none

/-- The market example of `demo()` (hmm.py lines 793-816), with states
`bull, bear, static ↦ 0, 1, 2` and symbols `up, down, unchanged ↦ 0, 1, 2`,
used as concrete witness input. -/
def demoHMM : HMM ℕ ℕ where
  symbols := [0, 1, 2]
  states := [0, 1, 2]
  transitions := fun s s' =>
    if s = 0 then (if s' = 0 then (3 : ℚ)/5 else if s' = 1 then 1/5 else if s' = 2 then 1/5 else 0)
    else if s = 1 then (if s' = 0 then 1/2 else if s' = 1 then 3/10 else if s' = 2 then 1/5 else 0)
    else if s = 2 then (if s' = 0 then 2/5 else if s' = 1 then 1/10 else if s' = 2 then 1/2 else 0)
    else 0
  outputs := fun s x =>
    if s = 0 then (if x = 0 then (7 : ℚ)/10 else if x = 1 then 1/10 else if x = 2 then 1/5 else 0)
    else if s = 1 then (if x = 0 then 1/10 else if x = 1 then 3/5 else if x = 2 then 3/10 else 0)
    else if s = 2 then (if x = 0 then 3/10 else if x = 1 then 3/10 else if x = 2 then 2/5 else 0)
    else 0
  priors := fun s => if s = 0 then (1 : ℚ)/2 else if s = 1 then 1/5 else if s = 2 then 3/10 else 0

/-- The inverse-CDF walk of `HiddenMarkovModel._sample_probdist` (hmm.py
lines 282-289): `cum_p = 0`, then for each sample in enumeration order,
return it if `cum_p <= p <= cum_p + add_p`, else advance the cumulative
sum.  Falling off the end is the raised
`Exception('Invalid probability distribution ...')`, modelled by `none`. -/
def sampleWalk (d : κ → ℚ) (p : ℚ) : ℚ → List κ → Option κ
  | _, [] => none
  | cum, s :: ss => if cum ≤ p ∧ p ≤ cum + d s then some s else sampleWalk d p (cum + d s) ss

/-- `HiddenMarkovModel._sample_probdist` itself: the walk started at 0. -/
def sample_probdist (d : κ → ℚ) (p : ℚ) (samples : List κ) : Option κ :=
  sampleWalk d p 0 samples

/-- The tail loop of `random_sample` (hmm.py lines 272-278): each iteration
draws the next state from the transition distribution of the previous
state, then the next symbol from the emission distribution of the new
state, one uniform draw each (`draws` is the stream of `rng.random()`
values, indexed by call order; `di` is the index of the next draw). -/
def randomSampleAux (m : HMM σ κ) (draws : ℕ → ℚ) : ℕ → ℕ → σ → Option (List (κ × σ))
  | 0, _, _ => some []
  | r + 1, di, st =>
    match sample_probdist (m.transitions st) (draws di) m.states with
    | none => none
    | some st' =>
      match sample_probdist (m.outputs st') (draws (di + 1)) m.symbols with
      | none => none
      | some sym =>
        match randomSampleAux m draws r (di + 2) st' with
        | none => none
        | some toks => some ((sym, st') :: toks)

/-- `HiddenMarkovModel.random_sample` (hmm.py lines 245-280): state and
symbol at time 0 from the priors and the emission distribution, then the
tail loop for the remaining `length - 1` positions.  A failed sampling
walk propagates to the caller unhandled. -/
def random_sample (m : HMM σ κ) (draws : ℕ → ℚ) (len : ℕ) : Option (List (κ × σ)) :=
  match sample_probdist m.priors (draws 0) m.states with
  | none => none
  | some st0 =>
    match sample_probdist (m.outputs st0) (draws 1) m.symbols with
    | none => none
    | some sym0 =>
      match randomSampleAux m draws (len - 1) 2 st0 with
      | none => none
      | some toks => some ((sym0, st0) :: toks)

/-- Specification-side cumulative enumeration: each sample paired with the
cumulative mass of the samples before it, in enumeration order. -/
def withCum (d : κ → ℚ) : ℚ → List κ → List (κ × ℚ)
  | _, [] => []
  | c, s :: ss => (s, c) :: withCum d (c + d s) ss

/-- Querying an emission distribution at an optional label: an absent
(`None`) label is an event outside the distribution.  Modelled from the
spec (section 6): the distribution interface exposes a probability for
every queried event, with mass only on its own samples, so a foreign event
carries zero mass. -/
def emitOpt (m : HMM σ κ) (tg : Option σ) (x : κ) : ℚ :=
  match tg with
  | some s => m.outputs s x
  | none => 0

/-- Querying the transition distribution collection at optional labels.
Modelled from the spec (section 6), as for `emitOpt`: a lookup with an
absent condition or event carries zero mass. -/
def transOpt (m : HMM σ κ) (lastTg tg : Option σ) : ℚ :=
  match lastTg, tg with
  | some s, some s' => m.transitions s s'
  | _, _ => 0

/-- The labelled-path loop of `log_probability` (hmm.py lines 151-159):
starting from the head contribution, multiply in (add, in log space) the
transition and emission factors of each later token, whose tag may be
absent. -/
def jointWalk (m : HMM σ κ) : ℚ → Option σ → List (κ × Option σ) → ℚ
  | pAcc, _, [] => pAcc
  | pAcc, lastTg, (x, tg) :: rest =>
    jointWalk m (pAcc * transOpt m lastTg tg * emitOpt m tg x) tg rest

/-- The forward-recursion branch of `log_probability` (hmm.py lines
160-163): `alpha = _forward_probability(...)`, then
`_log_add(*alpha[T-1, :])`. -/
def forwardMarginal (m : HMM σ κ) (xs : List κ) : Option ℚ :=
  match forwardProbability m xs with
  | none => none
  | some A => some (log_add (A.getD (xs.length - 1) []))

/-- `HiddenMarkovModel.log_probability` (hmm.py lines 133-163): the branch
condition `T > 0 and sequence[0][_TAG]` selects the joint-path computation
exactly when the sequence is non-empty and its first tag is truthy (a
present tag in this embedding); otherwise the forward-recursion marginal
over the TEXT projections is computed. -/
def log_probability (m : HMM σ κ) (seq : List (κ × Option σ)) : Option ℚ :=
  match seq with
  | (x0, some s0) :: rest =>
    some (jointWalk m (m.priors s0 * m.outputs s0 x0) (some s0) rest)
  | _ => forwardMarginal m (seq.map Prod.fst)

/-- Specification-side selector, following the spec's tie-break sentence:
the first candidate in iteration order whose score is maximal among all
candidates.  To be compared with the running-max fold `viterbiMax`
translated from the source. -/
def specFirstMax (l : List (ℚ × σ)) : Option (ℚ × σ) :=
  l.find? fun c => l.all fun d => decide (d.1 ≤ c.1)

/-- Pointwise product of two aligned matrix rows: the probability-domain
rendering of the entrywise sum `alpha[t, :] + beta[t, :]`. -/
def zipMulRow (a b : List ℚ) : List ℚ :=
  (a.zip b).map fun p => p.1 * p.2

/-- Sum of the pointwise products of two rows. -/
def dotRow (a b : List ℚ) : ℚ :=
  (zipMulRow a b).sum

/-- The forward row reached from row `r` after consuming the symbols `xs`
(the last row of `forwardAux m r xs`). -/
def lastAlpha (m : HMM σ κ) (r : List ℚ) (xs : List κ) : List ℚ :=
  xs.foldl (forwardStep m) r

/-- Well-formedness of the model parameters: priors, each transition row
and each emission row are distributions over the model's states and
symbols (masses non-negative, summing to one). -/
def wellFormed (m : HMM σ κ) : Prop :=
  ((m.states.map m.priors).sum = 1 ∧ ∀ s ∈ m.states, 0 ≤ m.priors s) ∧
  (∀ s ∈ m.states,
    (m.states.map (m.transitions s)).sum = 1 ∧ ∀ s' ∈ m.states, 0 ≤ m.transitions s s') ∧
  (∀ s ∈ m.states,
    (m.symbols.map (m.outputs s)).sum = 1 ∧ ∀ x : κ, 0 ≤ m.outputs s x)

/-- Entry `alpha[t, i]` of the forward matrix (0 outside the matrix). -/
def alphaAt (m : HMM σ κ) (seq : List κ) (t i : ℕ) : ℚ :=
  ((alphaList m seq).getD t []).getD i 0

/-- Entry `beta[t, i]` of the backward matrix (0 outside the matrix). -/
def betaAt (m : HMM σ κ) (seq : List κ) (t i : ℕ) : ℚ :=
  ((betaList m seq).getD t []).getD i 0

/-- `lpk = _log_add(*alpha[T-1, :])` (hmm.py line 645): the probability of
one training sequence under the current model. -/
def seqProb (m : HMM σ κ) (seq : List κ) : ℚ :=
  log_add ((alphaList m seq).getD (seq.length - 1) [])

/-- The four Baum-Welch accumulators (hmm.py lines 632-635 and 651-654),
state-indexed by position in the trainer's state list; the emission
numerator is keyed by the symbol itself (the source keys by
`symbol_dict[x]`, the symbol's index in the, distinct, alphabet). -/
structure EmAcc (κ : Type) where
  Anum : ℕ → ℕ → ℚ
  Bnum : ℕ → κ → ℚ
  Aden : ℕ → ℚ
  Bden : ℕ → ℚ

/-- Accumulators initialised to `_NINF` everywhere (probability 0). -/
def emAccZero : EmAcc κ :=
  ⟨fun _ _ => 0, fun _ _ => 0, fun _ => 0, fun _ => 0⟩

/-- The body of the per-position loop of `train_unsupervised` (hmm.py
lines 657-680) at position `t` with symbol `x`, in the probability domain:
for `t < T-1` the transition numerator gains
`alpha[t,i] + logprob(si→sj) + logprob(sj emits x_{t+1}) + beta[t+1,j]`
and the transition denominator gains `alpha[t,i] + beta[t,i]`; at the
final position the *emission* denominator is assigned
`_log_add(local_A_denom[i], alpha[t,i] + beta[t,i])` — reading the
transition denominator (line 676); and the emission numerator always gains
`alpha[t,i] + beta[t,i]` at the observed symbol. -/
def emAccStep (states : List σ) (m : HMM σ κ) (seq : List κ) (acc : EmAcc κ)
    (t : ℕ) (x : κ) : EmAcc κ where
  Anum := fun i j =>
    match states.get? i, states.get? j with
    | some si, some sj =>
      if t < seq.length - 1 then
        acc.Anum i j + alphaAt m seq t i * m.transitions si sj
          * m.outputs sj (seq.getD (t + 1) x) * betaAt m seq (t + 1) j
      else acc.Anum i j
    | _, _ => acc.Anum i j
  Bnum := fun i x' =>
    if i < states.length ∧ x' = x then
      acc.Bnum i x' + alphaAt m seq t i * betaAt m seq t i
    else acc.Bnum i x'
  Aden := fun i =>
    if i < states.length ∧ t < seq.length - 1 then
      acc.Aden i + alphaAt m seq t i * betaAt m seq t i
    else acc.Aden i
  Bden := fun i =>
    if i < states.length ∧ ¬t < seq.length - 1 then
      acc.Aden i + alphaAt m seq t i * betaAt m seq t i
    else acc.Bden i

/-- The per-sequence accumulators `local_A_numer` etc. (hmm.py lines
651-680): fold the per-position body over the sequence positions in
order. -/
def localAccum (states : List σ) (m : HMM σ κ) (seq : List κ) : EmAcc κ :=
  seq.enum.foldl (fun acc p => emAccStep states m seq acc p.1 p.2) emAccZero

/-- The merge of one sequence's accumulators into the global ones (hmm.py
lines 682-692): each local value is first normalised by the sequence
probability (`- lpk` in log space, division here). -/
def emMerge (g la : EmAcc κ) (pk : ℚ) : EmAcc κ where
  Anum := fun i j => g.Anum i j + la.Anum i j / pk
  Bnum := fun i x => g.Bnum i x + la.Bnum i x / pk
  Aden := fun i => g.Aden i + la.Aden i / pk
  Bden := fun i => g.Bden i + la.Bden i / pk

/-- The per-iteration pass over all training sequences (hmm.py lines
637-692), returning the merged global accumulators and the list of
per-sequence probabilities `lpk` (whose logs the source sums into
`logprob`). -/
def emSeqFold (states : List σ) (m : HMM σ κ) (seqs : List (List κ)) :
    EmAcc κ × List ℚ :=
  seqs.foldl
    (fun g seq => (emMerge g.1 (localAccum states m seq) (seqProb m seq), g.2 ++ [seqProb m seq]))
    (emAccZero, [])

/-- Point update of a two-argument function, modelling
`MutableProbDist.update(event, logprob)` on a conditional distribution
slot.  Modelled from the spec (section 6): an update overwrites the mass
of one addressable event. -/
def updFn2 {α β : Type} [DecidableEq α] [DecidableEq β] (f : α → β → ℚ) (a : α) (b : β)
    (v : ℚ) : α → β → ℚ :=
  fun x y => if x = a ∧ y = b then v else f x y

/-- The re-estimation step (hmm.py lines 694-705): for every state index
`i` and sink index `j`, `transitions[si].update(sj, A_numer[i,j] -
A_denom[i])`, and for every symbol index `k`, `outputs[si].update(ok,
B_numer[i,k] - B_denom[i])`; log-space subtraction is division here.
Priors are not updated (lines 704-705). -/
def emUpdate (states : List σ) (symbols : List κ) (g : EmAcc κ) (m : HMM σ κ) : HMM σ κ :=
  { m with
    transitions :=
      states.enum.foldl
        (fun f p =>
          states.enum.foldl (fun f' q => updFn2 f' p.2 q.2 (g.Anum p.1 q.1 / g.Aden p.1)) f)
        m.transitions
    outputs :=
      states.enum.foldl
        (fun f p =>
          symbols.enum.foldl (fun f' q => updFn2 f' p.2 q.2 (g.Bnum p.1 q.2 / g.Bden p.1)) f)
        m.outputs }

/-- One full EM iteration (E-step over all sequences under the current
parameters, then the re-estimation), returning the updated model and the
per-sequence probabilities computed under the pre-update parameters. -/
def emStep (states : List σ) (symbols : List κ) (seqs : List (List κ)) (m : HMM σ κ) :
    HMM σ κ × List ℚ :=
  (emUpdate states symbols (emSeqFold states m seqs).1 m, (emSeqFold states m seqs).2)

/-- `MutableProbDist(dist, events)`.  Modelled from the spec (section 6):
construction from a read-only distribution and the full event set gives
every listed event an addressable slot carrying the wrapped distribution's
mass; other events carry no mass. -/
def MutableProbDist {α : Type} [DecidableEq α] (d : α → ℚ) (events : List α) : α → ℚ :=
  fun a => if a ∈ events then d a else 0

/-- `UniformProbDist(events)`.  Modelled from the spec (section 4.4): no
seed model means uniform priors, transitions and emissions. -/
def UniformProbDist {α : Type} [DecidableEq α] (events : List α) : α → ℚ :=
  fun a => if a ∈ events then 1 / events.length else 0

/-- The mutable-wrap step of `train_unsupervised` (hmm.py lines 616-623):
each distribution is replaced by a `MutableProbDist` over the trainer's
state (or symbol) list, keyed by the trainer's states. -/
def emWrap (states : List σ) (symbols : List κ) (m : HMM σ κ) : HMM σ κ :=
  { m with
    priors := MutableProbDist m.priors states
    transitions := fun s s' =>
      if s ∈ states then MutableProbDist (m.transitions s) states s' else 0
    outputs := fun s x =>
      if s ∈ states then MutableProbDist (m.outputs s) symbols x else 0 }

/-- The initial model of `train_unsupervised` (hmm.py lines 604-623): the
seed model if given, else the uniform model, then mutably wrapped. -/
def emInit (states : List σ) (symbols : List κ) (seed : Option (HMM σ κ)) : HMM σ κ :=
  emWrap states symbols
    (match seed with
     | some m => m
     | none =>
       { symbols := symbols
         states := states
         transitions := fun s s' => if s ∈ states then UniformProbDist states s' else 0
         outputs := fun s x => if s ∈ states then UniformProbDist symbols x else 0
         priors := UniformProbDist states })

/-- The training-set log-probability of one iteration: `logprob += lpk`
(hmm.py lines 637-646), the sum of the real logarithms of the per-sequence
probabilities computed under the pre-update parameters. -/
noncomputable def emStepLP (states : List σ) (symbols : List κ) (seqs : List (List κ))
    (m : HMM σ κ) : ℝ :=
  ((emStep states symbols seqs m).2.map fun q => Real.log (q : ℝ)).sum

open Classical in
/-- The EM while-loop (hmm.py lines 626-713): run one iteration; if a
previous iteration exists (`iteration > 0`, i.e. `last_logprob` is set)
and the absolute log-probability change is below `epsilon`, stop;
otherwise recurse with the remaining iteration budget.  Returns the final
model and the number of completed iterations. -/
noncomputable def emLoop (states : List σ) (symbols : List κ) (seqs : List (List κ)) (ε : ℝ) :
    ℕ → HMM σ κ → Option ℝ → HMM σ κ × ℕ
  | 0, m, _ => (m, 0)
  | fuel + 1, m, lastlp =>
    if (match lastlp with
        | none => False
        | some l => |emStepLP states symbols seqs m - l| < ε) then
      ((emStep states symbols seqs m).1, 1)
    else
      (fun r : HMM σ κ × ℕ => (r.1, r.2 + 1))
        (emLoop states symbols seqs ε fuel (emStep states symbols seqs m).1
          (some (emStepLP states symbols seqs m)))

/-- `HiddenMarkovModelTrainer.train_unsupervised` (hmm.py lines 576-715),
together with the completed-iteration count of its loop (the source's
`iteration` variable on exit). -/
noncomputable def train_unsupervised (states : List σ) (symbols : List κ)
    (seqs : List (List κ)) (seed : Option (HMM σ κ)) (maxIter : ℕ) (ε : ℝ) :
    HMM σ κ × ℕ :=
  emLoop states symbols seqs ε maxIter (emInit states symbols seed) none

/-- The model entering EM iteration `k` (the wrapped initial model updated
`k` times). -/
def emModelAt (states : List σ) (symbols : List κ) (seqs : List (List κ)) (m0 : HMM σ κ) :
    ℕ → HMM σ κ
  | 0 => m0
  | k + 1 => (emStep states symbols seqs (emModelAt states symbols seqs m0 k)).1

/-- The training-set log-probability computed in iteration `k` (0-based),
under the parameters entering that iteration. -/
noncomputable def emLP (states : List σ) (symbols : List κ) (seqs : List (List κ))
    (m0 : HMM σ κ) (k : ℕ) : ℝ :=
  emStepLP states symbols seqs (emModelAt states symbols seqs m0 k)

/-- The `last_logprob` value entering iteration `j`. -/
noncomputable def emLast (states : List σ) (symbols : List κ) (seqs : List (List κ))
    (m0 : HMM σ κ) : ℕ → Option ℝ
  | 0 => none
  | j + 1 => some (emLP states symbols seqs m0 j)

/-- The convergence condition as tested in iteration `g` (hmm.py line
708): a previous iteration exists and the absolute change in training-set
log-probability is below the threshold. -/
def emTrigger (states : List σ) (symbols : List κ) (seqs : List (List κ)) (m0 : HMM σ κ)
    (ε : ℝ) (g : ℕ) : Prop :=
  0 < g ∧ |emLP states symbols seqs m0 g - emLP states symbols seqs m0 (g - 1)| < ε

/-- The five tables of `train_supervised`'s counting pass (hmm.py lines
741-762): start counts, transition counts, emission counts, and the
state/symbol lists extended in encounter order. -/
structure SupCounts (σ κ : Type) where
  starting : σ → ℕ
  transitions : σ → σ → ℕ
  outputs : σ → κ → ℕ
  states : List σ
  symbols : List κ

/-- `FreqDist.inc`.  Modelled from the spec (section 4.3): the counting
pass accumulates occurrence counts per event. -/
def bump {α : Type} [DecidableEq α] (f : α → ℕ) (a : α) : α → ℕ :=
  fun b => if b = a then f b + 1 else f b

/-- `ConditionalFreqDist[cond].inc(event)`.  Modelled from the spec
(section 4.3), as `bump` on one conditional slot. -/
def bump2 {α β : Type} [DecidableEq α] [DecidableEq β] (f : α → β → ℕ) (a : α) (b : β) :
    α → β → ℕ :=
  fun x y => if x = a ∧ y = b then f x y + 1 else f x y

/-- The per-token body of the counting loop (hmm.py lines 748-762): a
first token (`lasts == None`) increments the start count of its state,
a later token increments the transition count from the previous state;
every token increments the emission count of its (state, symbol) pair and
extends the state/symbol lists if its state or symbol is new. -/
def supToken (c : SupCounts σ κ) (lasts : Option σ) (tok : κ × σ) : SupCounts σ κ where
  starting := match lasts with | none => bump c.starting tok.2 | some _ => c.starting
  transitions := match lasts with | none => c.transitions | some l => bump2 c.transitions l tok.2
  outputs := bump2 c.outputs tok.2 tok.1
  states := if tok.2 ∈ c.states then c.states else c.states ++ [tok.2]
  symbols := if tok.1 ∈ c.symbols then c.symbols else c.symbols ++ [tok.1]

/-- The token loop over one sequence, carrying `lasts`. -/
def supSeqAux : SupCounts σ κ → Option σ → List (κ × σ) → SupCounts σ κ
  | c, _, [] => c
  | c, lasts, tok :: toks => supSeqAux (supToken c lasts tok) (some tok.2) toks

/-- One sequence's counting pass, starting with `lasts = None` (hmm.py
line 747). -/
def supSeq (c : SupCounts σ κ) (seq : List (κ × σ)) : SupCounts σ κ :=
  supSeqAux c none seq

/-- The full counting pass of `train_supervised` (hmm.py lines 741-762)
from the trainer's initial state and symbol lists. -/
def supervisedCounts (states0 : List σ) (symbols0 : List κ)
    (data : List (List (κ × σ))) : SupCounts σ κ :=
  data.foldl supSeq
    { starting := fun _ => 0
      transitions := fun _ _ => 0
      outputs := fun _ _ => 0
      states := states0
      symbols := symbols0 }

/-- `HiddenMarkovModelTrainer.train_supervised` (hmm.py lines 717-770):
the counting pass followed by the estimator (the pluggable smoothing
function `(freqdist, bins) -> probdist`, passed here at the two element
types it is applied to, with `bins` the state count for priors and
transitions and the symbol count for emissions). -/
def train_supervised (states0 : List σ) (symbols0 : List κ) (data : List (List (κ × σ)))
    (estS : (σ → ℕ) → ℕ → σ → ℚ) (estK : (κ → ℕ) → ℕ → κ → ℚ) : HMM σ κ where
  symbols := (supervisedCounts states0 symbols0 data).symbols
  states := (supervisedCounts states0 symbols0 data).states
  transitions := fun s =>
    estS ((supervisedCounts states0 symbols0 data).transitions s)
      (supervisedCounts states0 symbols0 data).states.length
  outputs := fun s =>
    estK ((supervisedCounts states0 symbols0 data).outputs s)
      (supervisedCounts states0 symbols0 data).symbols.length
  priors :=
    estS (supervisedCounts states0 symbols0 data).starting
      (supervisedCounts states0 symbols0 data).states.length

/-- Specification-side start count: the number of sequences whose first
label is `s`. -/
def specStartCount (data : List (List (κ × σ))) (s : σ) : ℕ :=
  data.countP fun seq =>
    match seq.head? with
    | some tok => decide (tok.2 = s)
    | none => false

/-- Specification-side adjacent-pair count in a label list. -/
def adjPairCount (s s' : σ) : List σ → ℕ
  | [] => 0
  | [_] => 0
  | a :: b :: rest => (if a = s ∧ b = s' then 1 else 0) + adjPairCount s s' (b :: rest)

/-- Specification-side transition count: adjacent label pairs `(s, s')`
summed over the sequences. -/
def specTransCount (data : List (List (κ × σ))) (s s' : σ) : ℕ :=
  (data.map fun seq => adjPairCount s s' (seq.map Prod.snd)).sum

/-- Specification-side emission count: occurrences of the token `(x, s)`
summed over the sequences. -/
def specEmitCount (data : List (List (κ × σ))) (s : σ) (x : κ) : ℕ :=
  (data.map fun seq => seq.countP fun tok => decide (tok = (x, s))).sum

/-- Claim C7: `_log_add` returns the sentinel when the maximum of its
arguments equals the sentinel (sentinel = 0 in the probability domain,
returned directly by the `else` branch without evaluating the summands);
it is commutative in its two arguments; and for every value strictly above
the sentinel, `_log_add(a, _NINF)` equals `a` exactly. -/
theorem log_add_sentinel_comm_identity :
    (∀ (v : ℚ) (vs : List ℚ), vs.foldl max v = 0 → log_add (v :: vs) = 0) ∧
    (∀ a b : ℚ, log_add [a, b] = log_add [b, a]) ∧
    (∀ a : ℚ, 0 < a → log_add [a, 0] = a) := by
  refine ⟨?_, ?_, ?_⟩
  · intro v vs h
    simp only [log_add, h, lt_self_iff_false, if_false]
  · intro a b
    simp only [log_add, List.foldl]
    rw [max_comm a b]
    by_cases h : 0 < max b a
    · rw [if_pos h, if_pos h]
      ring
    · rw [if_neg h, if_neg h]
  · intro a ha
    have hmax : [(0 : ℚ)].foldl max a = a := by
      simp [List.foldl, max_eq_left ha.le]
    simp only [log_add, hmax, if_pos ha, List.foldl]
    field_simp

/-- Witness for C7 at concrete inputs. -/
theorem log_add_sentinel_comm_identity_wit :
    log_add [0, 0] = 0 ∧ log_add [2, 5] = log_add [5, 2] ∧ log_add [3, 0] = 3 :=
  ⟨log_add_sentinel_comm_identity.1 0 [0] (by decide),
   log_add_sentinel_comm_identity.2.1 2 5,
   log_add_sentinel_comm_identity.2.2 3 (by norm_num)⟩

/-- Claim C2, counterexample: on the empty sequence the demo model's
`best_path` evaluates `unlabelled_sequence[0]` (hmm.py line 207) and
raises `IndexError`, and `entropy` raises the same way inside
`_forward_probability` (line 471); neither returns an empty path or zero
entropy. -/
theorem bestPath_entropy_empty_cex :
    bestPath demoHMM [] = none ∧ entropy demoHMM [] = none :=
  ⟨rfl, rfl⟩

/-- Claim C2, amended: for every HMM, calling `best_path` on an empty
sequence fails with an index error at the access of the first symbol, and
calling `entropy` on an empty sequence fails the same way inside the
forward-probability computation; neither call returns normally. -/
theorem bestPath_entropy_empty (m : HMM σ κ) :
    bestPath m [] = none ∧ entropy m [] = none :=
  ⟨rfl, rfl⟩

/-- Folding addition of a function over a list equals the initial value
plus the sum of the mapped list. -/
theorem foldl_add_eq {α : Type} (h : α → ℚ) :
    ∀ (l : List α) (c : ℚ), l.foldl (fun acc p => acc + h p) c = c + (l.map h).sum
  | [], c => by simp
  | x :: xs, c => by
    simp only [List.foldl, List.map, List.sum_cons]
    rw [foldl_add_eq h xs (c + h x)]
    ring

/-- Pointwise-equal functions map lists equally. -/
theorem map_eq_of_mem {α β : Type} {f g : α → β} :
    ∀ (l : List α), (∀ a ∈ l, f a = g a) → l.map f = l.map g
  | [], _ => rfl
  | a :: l, h => by
    simp only [List.map]
    rw [h a (List.mem_cons_self a l), map_eq_of_mem l fun b hb => h b (List.mem_cons_of_mem a hb)]

/-- Sums of pointwise sums split. -/
theorem sum_map_add_eq {α : Type} (l : List α) (f g : α → ℚ) :
    (l.map fun a => f a + g a).sum = (l.map f).sum + (l.map g).sum := by
  induction l with
  | nil => simp
  | cons a l ih => simp only [List.map, List.sum_cons, ih]; ring

/-- A constant right factor moves out of a mapped sum. -/
theorem sum_map_mul_const {α : Type} (l : List α) (h : α → ℚ) (c : ℚ) :
    (l.map fun a => h a * c).sum = (l.map h).sum * c := by
  induction l with
  | nil => simp
  | cons a l ih => simp only [List.map, List.sum_cons, ih]; ring

/-- A constant left factor moves out of a mapped sum. -/
theorem const_mul_sum_map {α : Type} (l : List α) (h : α → ℚ) (c : ℚ) :
    (l.map fun a => c * h a).sum = c * (l.map h).sum := by
  induction l with
  | nil => simp
  | cons a l ih => simp only [List.map, List.sum_cons, ih]; ring

/-- Finite double sums over lists commute. -/
theorem sum_exchange {α β : Type} (l1 : List α) (l2 : List β) (F : α → β → ℚ) :
    (l1.map fun a => (l2.map fun b => F a b).sum).sum
      = (l2.map fun b => (l1.map fun a => F a b).sum).sum := by
  induction l1 with
  | nil => simp
  | cons a l ih =>
    simp only [List.map, List.sum_cons, ih]
    exact (sum_map_add_eq l2 _ _).symm

/-- Zipping a list with a mapped copy of itself pairs each element with its
image. -/
theorem zip_self_map {α β : Type} (l : List α) (f : α → β) :
    l.zip (l.map f) = l.map fun a => (a, f a) := by
  induction l with
  | nil => rfl
  | cons a l ih => simp [ih]

/-- `dotRow` of two rows mapped over the same state list. -/
theorem dotRow_map_map (l : List σ) (f g : σ → ℚ) :
    dotRow (l.map f) (l.map g) = (l.map fun s => f s * g s).sum := by
  unfold dotRow zipMulRow
  rw [List.zip_map' f g l, List.map_map]
  rfl

/-- `forwardStep` with its inner fold rewritten as a mapped sum. -/
theorem forwardStep_eq (m : HMM σ κ) (r : List ℚ) (x : κ) :
    forwardStep m r x
      = m.states.map fun si =>
          ((m.states.zip r).map fun p => p.2 * m.transitions p.1 si).sum * m.outputs si x := by
  unfold forwardStep
  refine map_eq_of_mem _ fun si _ => ?_
  rw [foldl_add_eq (fun p => p.2 * m.transitions p.1 si) (m.states.zip r) 0, zero_add]

/-- `backwardStep` with its inner fold rewritten as a mapped sum. -/
theorem backwardStep_eq (m : HMM σ κ) (next : List ℚ) (x : κ) :
    backwardStep m next x
      = m.states.map fun si =>
          ((m.states.zip next).map fun p => m.transitions si p.1 * m.outputs p.1 x * p.2).sum := by
  unfold backwardStep
  refine map_eq_of_mem _ fun si _ => ?_
  rw [foldl_add_eq (fun p => m.transitions si p.1 * m.outputs p.1 x * p.2) (m.states.zip next) 0,
    zero_add]

/-- The exchange identity behind forward-backward consistency: pushing one
observation through the forward step on the left equals pushing it through
the backward step on the right. -/
theorem step_exchange (m : HMM σ κ) (f g : σ → ℚ) (x : κ) :
    dotRow (forwardStep m (m.states.map f) x) (m.states.map g)
      = dotRow (m.states.map f) (backwardStep m (m.states.map g) x) := by
  calc dotRow (forwardStep m (m.states.map f) x) (m.states.map g)
      = (m.states.map fun si =>
          ((m.states.map fun sj => f sj * m.transitions sj si).sum * m.outputs si x) * g si).sum := by
        rw [forwardStep_eq, zip_self_map, dotRow_map_map]
        simp only [List.map_map]
        rfl
    _ = (m.states.map fun si =>
          (m.states.map fun sj => f sj * m.transitions sj si * (m.outputs si x * g si)).sum).sum := by
        refine congrArg List.sum (map_eq_of_mem _ fun si _ => ?_)
        rw [sum_map_mul_const]
        ring
    _ = (m.states.map fun sj =>
          (m.states.map fun si => f sj * m.transitions sj si * (m.outputs si x * g si)).sum).sum :=
        sum_exchange _ _ _
    _ = (m.states.map fun sj =>
          f sj * (m.states.map fun si => m.transitions sj si * m.outputs si x * g si).sum).sum := by
        refine congrArg List.sum (map_eq_of_mem _ fun sj _ => ?_)
        rw [← const_mul_sum_map]
        refine congrArg List.sum (map_eq_of_mem _ fun si _ => ?_)
        ring
    _ = dotRow (m.states.map f) (backwardStep m (m.states.map g) x) := by
        rw [backwardStep_eq, zip_self_map, dotRow_map_map]
        simp only [List.map_map]
        rfl

/-- Every backward row is a map over the state list. -/
theorem betaSuffix_shape (m : HMM σ κ) (ys : List κ) :
    ∃ g, betaSuffix m ys = m.states.map g := by
  cases ys with
  | nil => exact ⟨fun _ => 1, rfl⟩
  | cons y ys => exact ⟨_, rfl⟩

/-- Every forward row reached from a mapped row is a map over the state
list. -/
theorem lastAlpha_shape (m : HMM σ κ) :
    ∀ (xs : List κ) (f : σ → ℚ), ∃ g, lastAlpha m (m.states.map f) xs = m.states.map g
  | [], f => ⟨f, rfl⟩
  | x :: xs, f => by
    have h : lastAlpha m (m.states.map f) (x :: xs)
        = lastAlpha m (forwardStep m (m.states.map f) x) xs := rfl
    have h3 : forwardStep m (m.states.map f) x
        = m.states.map (fun si =>
            ((m.states.zip (m.states.map f)).foldl
              (fun acc p => acc + p.2 * m.transitions p.1 si) 0) * m.outputs si x) := rfl
    rw [h, h3]
    exact lastAlpha_shape m xs _

/-- The invariant of the forward-backward pair: dotting any starting row
against the backward value of the remaining observations equals the sum of
the forward row reached after consuming them. -/
theorem key_invariant (m : HMM σ κ) :
    ∀ (xs : List κ) (f : σ → ℚ),
      dotRow (m.states.map f) (betaSuffix m xs) = (lastAlpha m (m.states.map f) xs).sum
  | [], f => by
    have h : betaSuffix m ([] : List κ) = m.states.map fun _ => (1 : ℚ) := rfl
    rw [h, dotRow_map_map]
    simp [lastAlpha]
  | y :: ys, f => by
    obtain ⟨g, hg⟩ := betaSuffix_shape m ys
    have h2 : dotRow (m.states.map f) (betaSuffix m (y :: ys))
        = dotRow (forwardStep m (m.states.map f) y) (betaSuffix m ys) := by
      show dotRow (m.states.map f) (backwardStep m (betaSuffix m ys) y) = _
      rw [hg, ← step_exchange]
    have h3 : forwardStep m (m.states.map f) y
        = m.states.map (fun si =>
            ((m.states.zip (m.states.map f)).foldl
              (fun acc p => acc + p.2 * m.transitions p.1 si) 0) * m.outputs si y) := rfl
    rw [h2, h3, key_invariant m ys _, ← h3]
    rfl

/-- Row `t` of the forward matrix is the fold of the first `t` observation
steps. -/
theorem forwardAux_getD (m : HMM σ κ) :
    ∀ (xs : List κ) (r : List ℚ) (t : ℕ), t ≤ xs.length →
      (forwardAux m r xs).getD t [] = lastAlpha m r (xs.take t)
  | xs, r, 0, _ => by cases xs <;> rfl
  | [], _, t + 1, h => absurd h (by simp)
  | x :: xs, r, t + 1, h => by
    show (forwardAux m (forwardStep m r x) xs).getD t [] = _
    rw [forwardAux_getD m xs (forwardStep m r x) t (by simpa using h)]
    rfl

/-- Row `t` of the backward matrix is the backward value of the symbols
after time `t`. -/
theorem betaList_getD (m : HMM σ κ) :
    ∀ (seq : List κ) (t : ℕ), t < seq.length →
      (betaList m seq).getD t [] = betaSuffix m (seq.drop (t + 1))
  | [], t, h => absurd h (by simp)
  | _ :: _, 0, _ => rfl
  | x :: rest, t + 1, h => by
    show (betaList m rest).getD t [] = _
    rw [betaList_getD m rest t (by simpa using h)]
    rfl

/-- Splitting the forward fold at time `t`. -/
theorem lastAlpha_take_drop (m : HMM σ κ) (r : List ℚ) (xs : List κ) (t : ℕ) :
    lastAlpha m (lastAlpha m r (xs.take t)) (xs.drop t) = lastAlpha m r xs := by
  unfold lastAlpha
  rw [← List.foldl_append, List.take_append_drop]

/-- The initial value bounds a `max` fold from below. -/
theorem le_foldl_max : ∀ (vs : List ℚ) (v : ℚ), v ≤ vs.foldl max v
  | [], v => le_refl v
  | w :: ws, v => le_trans (le_max_left v w) (le_foldl_max ws (max v w))

/-- Every member bounds a `max` fold from below. -/
theorem mem_le_foldl_max : ∀ (vs : List ℚ) (v w : ℚ), w ∈ vs → w ≤ vs.foldl max v
  | [], _, w, h => absurd h (List.not_mem_nil w)
  | u :: us, v, w, h => by
    rcases List.mem_cons.mp h with h1 | h2
    · subst h1
      exact le_trans (le_max_right v w) (le_foldl_max us (max v w))
    · exact mem_le_foldl_max us (max v u) w h2

/-- On non-negative inputs (the image of the probability-domain transport)
`_log_add` is exactly addition. -/
theorem log_add_eq_sum : ∀ (l : List ℚ), (∀ v ∈ l, 0 ≤ v) → log_add l = l.sum
  | [], _ => rfl
  | v :: vs, hl => by
    simp only [log_add]
    by_cases hx : 0 < vs.foldl max v
    · rw [if_pos hx, foldl_add_eq (fun w => w / vs.foldl max v) (v :: vs) 0, zero_add]
      have hdiv : ((v :: vs).map fun w => w / vs.foldl max v).sum
          = (v :: vs).sum * (vs.foldl max v)⁻¹ := by
        rw [show ((v :: vs).map fun w => w / vs.foldl max v)
              = (v :: vs).map fun w => w * (vs.foldl max v)⁻¹ from by
            refine map_eq_of_mem _ fun w _ => ?_
            rw [div_eq_mul_inv]]
        rw [sum_map_mul_const (v :: vs) (fun w => w) ((vs.foldl max v)⁻¹), List.map_id']
      rw [hdiv]
      field_simp
    · rw [if_neg hx]
      have hzero : ∀ w ∈ v :: vs, w = 0 := by
        intro w hw
        have h1 : w ≤ vs.foldl max v := by
          rcases List.mem_cons.mp hw with h | h
          · subst h; exact le_foldl_max vs w
          · exact mem_le_foldl_max vs v w h
        have h2 : 0 ≤ w := hl w hw
        have h3 : vs.foldl max v ≤ 0 := not_lt.mp hx
        linarith
      have hsum : (v :: vs).sum = 0 := List.sum_eq_zero hzero
      have hv0 : v = 0 := hzero v (List.mem_cons_self v vs)
      have hmax0 : vs.foldl max v = 0 :=
        le_antisymm (not_lt.mp hx) (hv0 ▸ le_foldl_max vs v)
      rw [hsum, hmax0]

/-- Entries of the initial forward row are non-negative. -/
theorem forwardInit_nonneg (m : HMM σ κ) (hm : wellFormed m) (x : κ) :
    ∀ v ∈ forwardInit m x, 0 ≤ v := by
  intro v hv
  obtain ⟨s, hs, rfl⟩ := List.mem_map.mp hv
  exact mul_nonneg (hm.1.2 s hs) ((hm.2.2 s hs).2 x)

/-- The forward step preserves non-negativity of rows. -/
theorem forwardStep_nonneg (m : HMM σ κ) (hm : wellFormed m) (r : List ℚ)
    (hr : ∀ v ∈ r, 0 ≤ v) (x : κ) : ∀ v ∈ forwardStep m r x, 0 ≤ v := by
  intro v hv
  rw [forwardStep_eq] at hv
  obtain ⟨si, hsi, rfl⟩ := List.mem_map.mp hv
  refine mul_nonneg (List.sum_nonneg ?_) ((hm.2.2 si hsi).2 x)
  intro w hw
  obtain ⟨p, hp, rfl⟩ := List.mem_map.mp hw
  obtain ⟨a, b⟩ := p
  have hmem := List.of_mem_zip hp
  exact mul_nonneg (hr b hmem.2) ((hm.2.1 a hmem.1).2 si hsi)

/-- Forward rows reached from a non-negative row stay non-negative. -/
theorem lastAlpha_nonneg (m : HMM σ κ) (hm : wellFormed m) :
    ∀ (xs : List κ) (r : List ℚ), (∀ v ∈ r, 0 ≤ v) → ∀ v ∈ lastAlpha m r xs, 0 ≤ v
  | [], _, hr => hr
  | x :: xs, r, hr =>
    lastAlpha_nonneg m hm xs (forwardStep m r x) (forwardStep_nonneg m hm r hr x)

/-- The backward step preserves non-negativity of rows. -/
theorem backwardStep_nonneg (m : HMM σ κ) (hm : wellFormed m) (next : List ℚ)
    (hn : ∀ v ∈ next, 0 ≤ v) (x : κ) : ∀ v ∈ backwardStep m next x, 0 ≤ v := by
  intro v hv
  rw [backwardStep_eq] at hv
  obtain ⟨si, hsi, rfl⟩ := List.mem_map.mp hv
  refine List.sum_nonneg ?_
  intro w hw
  obtain ⟨p, hp, rfl⟩ := List.mem_map.mp hw
  obtain ⟨a, b⟩ := p
  have hmem := List.of_mem_zip hp
  exact mul_nonneg
    (mul_nonneg ((hm.2.1 si hsi).2 a hmem.1) ((hm.2.2 a hmem.1).2 x)) (hn b hmem.2)

/-- Backward rows are non-negative. -/
theorem betaSuffix_nonneg (m : HMM σ κ) (hm : wellFormed m) :
    ∀ (ys : List κ), ∀ v ∈ betaSuffix m ys, 0 ≤ v
  | [] => by
    intro v hv
    obtain ⟨s, _, rfl⟩ := List.mem_map.mp hv
    exact zero_le_one
  | y :: ys =>
    backwardStep_nonneg m hm (betaSuffix m ys) (betaSuffix_nonneg m hm ys) y

/-- Pointwise products of non-negative rows are non-negative. -/
theorem zipMulRow_nonneg (a b : List ℚ) (ha : ∀ v ∈ a, 0 ≤ v) (hb : ∀ v ∈ b, 0 ≤ v) :
    ∀ v ∈ zipMulRow a b, 0 ≤ v := by
  intro v hv
  obtain ⟨p, hp, rfl⟩ := List.mem_map.mp hv
  obtain ⟨u, w⟩ := p
  have hmem := List.of_mem_zip hp
  exact mul_nonneg (ha u hmem.1) (hb w hmem.2)

/-- Claim C1: for every well-formed HMM and non-empty sequence, with
`alpha` the matrix computed by `_forward_probability` and `beta` the matrix
computed by `_backward_probability`, at every time `t` the `_log_add` over
all states of `alpha[t, i] + beta[t, i]` (pointwise products in the
probability domain) equals the `_log_add` over all states of
`alpha[T-1, i]`, and exactly so — the tolerance of the claim is not
needed. -/
theorem forward_backward_consistency (m : HMM σ κ) (seq : List κ)
    (hm : wellFormed m) (hne : seq ≠ []) (A B : List (List ℚ))
    (hA : forwardProbability m seq = some A) (hB : backwardProbability m seq = some B)
    (t : ℕ) (ht : t < seq.length) :
    log_add (zipMulRow (A.getD t []) (B.getD t []))
      = log_add (A.getD (seq.length - 1) []) := by
  obtain ⟨x0, rest, rfl⟩ : ∃ x0 rest, seq = x0 :: rest := by
    cases seq with
    | nil => exact absurd rfl hne
    | cons a l => exact ⟨a, l, rfl⟩
  have hA' : A = alphaList m (x0 :: rest) := by
    have : some (alphaList m (x0 :: rest)) = some A := hA
    exact (Option.some.inj this).symm
  have hB' : B = betaList m (x0 :: rest) := by
    have : some (betaList m (x0 :: rest)) = some B := hB
    exact (Option.some.inj this).symm
  subst hA'
  subst hB'
  have htt : t ≤ rest.length := Nat.lt_succ_iff.mp (by simpa using ht)
  have hAt : (alphaList m (x0 :: rest)).getD t []
      = lastAlpha m (forwardInit m x0) (rest.take t) :=
    forwardAux_getD m rest (forwardInit m x0) t htt
  have hlast : (alphaList m (x0 :: rest)).getD ((x0 :: rest).length - 1) []
      = lastAlpha m (forwardInit m x0) rest := by
    have h1 : (x0 :: rest).length - 1 = rest.length := by simp
    rw [h1]
    have h2 := forwardAux_getD m rest (forwardInit m x0) rest.length (le_refl _)
    rw [List.take_length] at h2
    exact h2
  have hBt : (betaList m (x0 :: rest)).getD t [] = betaSuffix m (rest.drop t) := by
    rw [betaList_getD m (x0 :: rest) t ht]
    rfl
  have hinit : forwardInit m x0 = m.states.map fun s => m.priors s * m.outputs s x0 := rfl
  obtain ⟨g, hg⟩ := lastAlpha_shape m (rest.take t) fun s => m.priors s * m.outputs s x0
  have hdot : dotRow (lastAlpha m (forwardInit m x0) (rest.take t)) (betaSuffix m (rest.drop t))
      = (lastAlpha m (forwardInit m x0) rest).sum := by
    rw [hinit, hg, key_invariant m (rest.drop t) g, ← hg, ← hinit, lastAlpha_take_drop]
  have hαt : ∀ v ∈ lastAlpha m (forwardInit m x0) (rest.take t), 0 ≤ v :=
    lastAlpha_nonneg m hm (rest.take t) (forwardInit m x0) (forwardInit_nonneg m hm x0)
  have hαl : ∀ v ∈ lastAlpha m (forwardInit m x0) rest, 0 ≤ v :=
    lastAlpha_nonneg m hm rest (forwardInit m x0) (forwardInit_nonneg m hm x0)
  have hβt : ∀ v ∈ betaSuffix m (rest.drop t), 0 ≤ v := betaSuffix_nonneg m hm (rest.drop t)
  rw [hAt, hBt, hlast,
    log_add_eq_sum _ (zipMulRow_nonneg _ _ hαt hβt), log_add_eq_sum _ hαl]
  exact hdot

/-- The demo market model is well-formed. -/
theorem demoHMM_wellFormed : wellFormed demoHMM := by
  unfold wellFormed
  refine ⟨⟨?_, ?_⟩, ?_, ?_⟩
  · norm_num [demoHMM]
  · intro s hs
    fin_cases hs <;> norm_num [demoHMM]
  · intro s hs
    refine ⟨?_, ?_⟩
    · fin_cases hs <;> norm_num [demoHMM]
    · intro s' hs'
      fin_cases hs <;> fin_cases hs' <;> norm_num [demoHMM]
  · intro s hs
    refine ⟨?_, ?_⟩
    · fin_cases hs <;> norm_num [demoHMM]
    · intro x
      simp only [demoHMM]
      split_ifs <;> norm_num

/-- Witness for C1 on the demo market model with the observation sequence
`up, down`. -/
theorem forward_backward_consistency_wit :
    log_add (zipMulRow ((alphaList demoHMM [0, 1]).getD 0 [])
        ((betaList demoHMM [0, 1]).getD 0 []))
      = log_add ((alphaList demoHMM [0, 1]).getD 1 []) :=
  forward_backward_consistency demoHMM [0, 1] demoHMM_wellFormed (by decide)
    (alphaList demoHMM [0, 1]) (betaList demoHMM [0, 1]) rfl rfl 0 (by decide)

/-- `find?` only depends on the predicate's values on the list. -/
theorem findFirst_agree {α : Type} {p q : α → Bool} :
    ∀ l : List α, (∀ x ∈ l, p x = q x) → l.find? p = l.find? q := by
  intro l
  induction l with
  | nil => intro _; rfl
  | cons a t ih =>
    intro hpq
    have hhead : p a = q a := hpq a (List.mem_cons_self a t)
    have htail : t.find? p = t.find? q := ih fun b hb => hpq b (List.mem_cons_of_mem a hb)
    simp only [List.find?, hhead, htail]

/-- A list with a member above `w` has no all-below-`w` property. -/
theorem all_le_eq_false (l : List (ℚ × σ)) (w e : ℚ × σ) (hel : e ∈ l) (hwe : w.1 < e.1) :
    (l.all fun x => decide (x.1 ≤ w.1)) = false := by
  refine Bool.eq_false_iff.mpr fun hall => ?_
  have h1 := List.all_eq_true.mp hall e hel
  exact absurd (of_decide_eq_true h1) (not_le.mpr hwe)

/-- Dropping a non-maximal head does not change the first maximum. -/
theorem specFirstMax_drop_lt (b c : ℚ × σ) (cs : List (ℚ × σ)) (hbc : b.1 < c.1) :
    specFirstMax (b :: c :: cs) = specFirstMax (c :: cs) := by
  unfold specFirstMax
  have hb : ((b :: c :: cs).all fun d => decide (d.1 ≤ b.1)) = false :=
    all_le_eq_false _ b c (List.mem_cons_of_mem b (List.mem_cons_self c cs)) hbc
  have e1 := List.find?_cons_of_neg (p := fun c' => (b :: c :: cs).all fun d => decide (d.1 ≤ c'.1))
    (c :: cs) (a := b) (by rw [show ((fun c' => (b :: c :: cs).all fun d => decide (d.1 ≤ c'.1)) b) = false from hb]; exact Bool.false_ne_true)
  rw [e1]
  refine findFirst_agree _ fun d hd => ?_
  simp only [List.all_cons]
  by_cases hc : c.1 ≤ d.1
  · have hb2 : b.1 ≤ d.1 := le_of_lt (lt_of_lt_of_le hbc hc)
    rw [decide_eq_true hb2]
    simp
  · rw [decide_eq_false hc]
    simp

/-- Dropping a later element dominated by the head does not change the
first maximum. -/
theorem specFirstMax_drop_le (b c : ℚ × σ) (cs : List (ℚ × σ)) (hcb : c.1 ≤ b.1) :
    specFirstMax (b :: c :: cs) = specFirstMax (b :: cs) := by
  unfold specFirstMax
  by_cases hb : ∀ e ∈ b :: cs, e.1 ≤ b.1
  · have hb1 : ((b :: c :: cs).all fun e => decide (e.1 ≤ b.1)) = true := by
      rw [List.all_eq_true]
      intro e he
      rcases List.mem_cons.mp he with he1 | he2
      · exact decide_eq_true (he1 ▸ le_refl _)
      · rcases List.mem_cons.mp he2 with he3 | he4
        · exact decide_eq_true (he3 ▸ hcb)
        · exact decide_eq_true (hb e (List.mem_cons_of_mem b he4))
    have hb2 : ((b :: cs).all fun e => decide (e.1 ≤ b.1)) = true := by
      rw [List.all_eq_true]
      intro e he
      exact decide_eq_true (hb e he)
    have e1 := List.find?_cons_of_pos (p := fun c' => (b :: c :: cs).all fun d => decide (d.1 ≤ c'.1))
      (c :: cs) (a := b) (by exact hb1)
    have e2 := List.find?_cons_of_pos (p := fun c' => (b :: cs).all fun d => decide (d.1 ≤ c'.1))
      cs (a := b) (by exact hb2)
    rw [e1, e2]
  · push_neg at hb
    obtain ⟨e, he, hbe⟩ := hb
    have hemem : e ∈ b :: c :: cs := by
      rcases List.mem_cons.mp he with he1 | he2
      · exact he1 ▸ List.mem_cons_self b (c :: cs)
      · exact List.mem_cons_of_mem b (List.mem_cons_of_mem c he2)
    have hb1 := all_le_eq_false (b :: c :: cs) b e hemem hbe
    have hb2 := all_le_eq_false (b :: cs) b e he hbe
    have hc1 := all_le_eq_false (b :: c :: cs) c e hemem (lt_of_le_of_lt hcb hbe)
    have e1 := List.find?_cons_of_neg (p := fun c' => (b :: c :: cs).all fun d => decide (d.1 ≤ c'.1))
      (c :: cs) (a := b) (by rw [show ((fun c' => (b :: c :: cs).all fun d => decide (d.1 ≤ c'.1)) b) = false from hb1]; exact Bool.false_ne_true)
    have e2 := List.find?_cons_of_neg (p := fun c' => (b :: c :: cs).all fun d => decide (d.1 ≤ c'.1))
      cs (a := c) (by rw [show ((fun c' => (b :: c :: cs).all fun d => decide (d.1 ≤ c'.1)) c) = false from hc1]; exact Bool.false_ne_true)
    have e3 := List.find?_cons_of_neg (p := fun c' => (b :: cs).all fun d => decide (d.1 ≤ c'.1))
      cs (a := b) (by rw [show ((fun c' => (b :: cs).all fun d => decide (d.1 ≤ c'.1)) b) = false from hb2]; exact Bool.false_ne_true)
    rw [e1, e2, e3]
    refine findFirst_agree _ fun d hd => ?_
    simp only [List.all_cons]
    by_cases hbd : b.1 ≤ d.1
    · have hcd : c.1 ≤ d.1 := le_trans hcb hbd
      rw [decide_eq_true hbd, decide_eq_true hcd]
      simp
    · rw [decide_eq_false hbd]
      simp

/-- The running-max fold with a seeded accumulator computes the first
maximum of the seeded candidate list. -/
theorem viterbiAux_spec :
    ∀ (cs : List (ℚ × σ)) (b : ℚ × σ),
      cs.foldl
        (fun best c =>
          match best with
          | none => some c
          | some b' => if b'.1 < c.1 then some c else some b')
        (some b)
      = specFirstMax (b :: cs)
  | [], b => by
    have h1 : (([b] : List (ℚ × σ)).all fun d => decide (d.1 ≤ b.1)) = true := by
      rw [List.all_eq_true]
      intro e he
      rcases List.mem_cons.mp he with he1 | he2
      · exact decide_eq_true (he1 ▸ le_refl _)
      · exact absurd he2 (List.not_mem_nil e)
    have e1 := List.find?_cons_of_pos (p := fun c' => ([b] : List (ℚ × σ)).all fun d => decide (d.1 ≤ c'.1))
      [] (a := b) (by exact h1)
    simpa [specFirstMax] using e1
  | c :: cs, b => by
    rw [List.foldl_cons]
    show cs.foldl _ (if b.1 < c.1 then some c else some b) = _
    by_cases hbc : b.1 < c.1
    · rw [if_pos hbc, viterbiAux_spec cs c, specFirstMax_drop_lt b c cs hbc]
    · rw [if_neg hbc, viterbiAux_spec cs b, specFirstMax_drop_le b c cs (not_lt.mp hbc)]

/-- Claim C3: every maximisation step of `best_path` — the per-time-step
choice of best predecessor (hmm.py lines 218-223) and the final-state
choice (lines 228-232), both of which are `viterbiMax` folds in this
embedding — returns the first candidate in the model's fixed
state-iteration order attaining the maximal score, so ties are broken
deterministically in favour of the first-encountered maximum. -/
theorem viterbiMax_first_encountered (l : List (ℚ × σ)) (h : l ≠ []) :
    viterbiMax l = specFirstMax l := by
  cases l with
  | nil => exact absurd rfl h
  | cons b cs =>
    show cs.foldl _ (some b) = _
    exact viterbiAux_spec cs b

/-- Witness for C3 on a two-way tie: the first candidate wins. -/
theorem viterbiMax_first_encountered_wit :
    viterbiMax [((1 : ℚ), (0 : ℕ)), (1, 1)] = specFirstMax [((1 : ℚ), (0 : ℕ)), (1, 1)] :=
  viterbiMax_first_encountered _ (List.cons_ne_nil _ _)

/-- The sampling walk started at `c` finds the first cumulative bracket
containing the draw. -/
theorem sampleWalk_eq_find? (d : κ → ℚ) (p : ℚ) :
    ∀ (samples : List κ) (c : ℚ),
      sampleWalk d p c samples
        = ((withCum d c samples).find? fun q => decide (q.2 ≤ p ∧ p ≤ q.2 + d q.1)).map
            Prod.fst
  | [], c => rfl
  | s :: ss, c => by
    rw [show sampleWalk d p c (s :: ss)
        = (if c ≤ p ∧ p ≤ c + d s then some s else sampleWalk d p (c + d s) ss) from rfl,
      show withCum d c (s :: ss) = (s, c) :: withCum d (c + d s) ss from rfl]
    by_cases h : c ≤ p ∧ p ≤ c + d s
    · have e1 := List.find?_cons_of_pos
        (p := fun q => decide (q.2 ≤ p ∧ p ≤ q.2 + d q.1))
        (withCum d (c + d s) ss) (a := (s, c)) (by exact decide_eq_true h)
      rw [if_pos h, e1]
      rfl
    · have e1 := List.find?_cons_of_neg
        (p := fun q => decide (q.2 ≤ p ∧ p ≤ q.2 + d q.1))
        (withCum d (c + d s) ss) (a := (s, c))
        (fun htrue => h (of_decide_eq_true htrue))
      rw [if_neg h, e1]
      exact sampleWalk_eq_find? d p ss (c + d s)

/-- Claim C8: `_sample_probdist` walks the cumulative sums in enumeration
order and returns the first sample whose cumulative bracket
`[cum, cum + prob(sample)]` contains the draw `p`; it raises (returns
`none`) exactly when no bracket contains the draw; and such a failure of
the sampling walk is surfaced to `random_sample`'s caller rather than
handled. -/
theorem sample_probdist_first_bracket :
    (∀ (d : κ → ℚ) (p : ℚ) (samples : List κ),
      sample_probdist d p samples
        = ((withCum d 0 samples).find? fun q => decide (q.2 ≤ p ∧ p ≤ q.2 + d q.1)).map
            Prod.fst) ∧
    (∀ (d : κ → ℚ) (p : ℚ) (samples : List κ),
      sample_probdist d p samples = none ↔
        ∀ q ∈ withCum d 0 samples, ¬(q.2 ≤ p ∧ p ≤ q.2 + d q.1)) ∧
    (∀ (m : HMM σ κ) (draws : ℕ → ℚ) (len : ℕ),
      sample_probdist m.priors (draws 0) m.states = none →
        random_sample m draws len = none) := by
  refine ⟨fun d p samples => sampleWalk_eq_find? d p samples 0, fun d p samples => ?_, ?_⟩
  · rw [show sample_probdist d p samples = sampleWalk d p 0 samples from rfl,
      sampleWalk_eq_find? d p samples 0]
    rw [Option.map_eq_none']
    rw [List.find?_eq_none]
    constructor
    · intro h q hq
      have h1 := h q hq
      intro h2
      exact h1 (decide_eq_true h2)
    · intro h q hq htrue
      exact h q hq (of_decide_eq_true htrue)
  · intro m draws len h
    unfold random_sample
    rw [h]

/-- Witness for C8's surfacing conjunct: on the demo model a draw of 2
exceeds the total prior mass, no bracket contains it, and `random_sample`
fails. -/
theorem sample_probdist_first_bracket_wit :
    random_sample demoHMM (fun _ => 2) 1 = none :=
  sample_probdist_first_bracket.2.2 demoHMM (fun _ => 2) 1 (by
    norm_num [sample_probdist, sampleWalk, demoHMM])

/-- Claim C10: `log_probability` selects its branch solely on the
truthiness of the first token's tag.  A present first tag takes the
joint-path branch for every tail, even one with absent tags; an absent
first tag takes the forward-recursion marginal over the TEXT projections
for every tail, even one with present tags. -/
theorem log_probability_branch :
    (∀ (m : HMM σ κ) (x0 : κ) (s0 : σ) (rest : List (κ × Option σ)),
      log_probability m ((x0, some s0) :: rest)
        = some (jointWalk m (m.priors s0 * m.outputs s0 x0) (some s0) rest)) ∧
    (∀ (m : HMM σ κ) (x0 : κ) (rest : List (κ × Option σ)),
      log_probability m ((x0, none) :: rest)
        = forwardMarginal m (x0 :: rest.map Prod.fst)) :=
  ⟨fun _ _ _ _ => rfl, fun _ _ _ => rfl⟩

/-- The position enumeration of a non-empty sequence splits off its final
position. -/
theorem seq_enum_split (seq : List κ) (hne : seq ≠ []) :
    seq.enum = seq.dropLast.enum ++ [(seq.length - 1, seq.getLast hne)] := by
  conv_lhs => rw [← List.dropLast_append_getLast hne]
  rw [List.enum_append]
  congr 1
  rw [List.length_dropLast]
  rfl

/-- Claim C5: in every EM iteration and for every non-empty training
sequence, the final value of the per-sequence emission-denominator entry
`local_B_denom[i]` equals `local_A_denom[i]` (which the final position
leaves untouched) plus `alpha[T-1,i] * beta[T-1,i]` — the `_log_add` of
the transition-denominator accumulator and `alpha + beta` in log space —
i.e. the assignment at `t = T-1` routes through the transition
denominator, not the emission denominator (hmm.py line 676). -/
theorem local_B_denom_routing (states : List σ) (m : HMM σ κ) (seq : List κ)
    (hne : seq ≠ []) (i : ℕ) (hi : i < states.length) :
    (localAccum states m seq).Bden i
      = (localAccum states m seq).Aden i
        + alphaAt m seq (seq.length - 1) i * betaAt m seq (seq.length - 1) i := by
  have hT : ¬(seq.length - 1 < seq.length - 1) := lt_irrefl _
  rw [show localAccum states m seq
      = seq.enum.foldl (fun acc p => emAccStep states m seq acc p.1 p.2) emAccZero from rfl,
    seq_enum_split seq hne, List.foldl_append, List.foldl_cons, List.foldl_nil]
  show (emAccStep states m seq _ (seq.length - 1) (seq.getLast hne)).Bden i = _
  simp only [emAccStep]
  rw [if_pos (⟨hi, hT⟩ : i < states.length ∧ ¬seq.length - 1 < seq.length - 1),
    if_neg (fun hcon : i < states.length ∧ seq.length - 1 < seq.length - 1 => hT hcon.2)]

/-- Witness for C5 on the demo model with sequence `up, down`, state
index 0. -/
theorem local_B_denom_routing_wit :
    (localAccum [0, 1, 2] demoHMM [0, 1]).Bden 0
      = (localAccum [0, 1, 2] demoHMM [0, 1]).Aden 0
        + alphaAt demoHMM [0, 1] 1 0 * betaAt demoHMM [0, 1] 1 0 :=
  local_B_denom_routing [0, 1, 2] demoHMM [0, 1] (by decide) 0 (by decide)

/-- One EM iteration never touches the prior distribution. -/
theorem emStep_priors (states : List σ) (symbols : List κ) (seqs : List (List κ))
    (m : HMM σ κ) : (emStep states symbols seqs m).1.priors = m.priors := rfl

/-- The EM loop never touches the prior distribution. -/
theorem emLoop_priors (states : List σ) (symbols : List κ) (seqs : List (List κ)) (ε : ℝ) :
    ∀ (fuel : ℕ) (m : HMM σ κ) (lastlp : Option ℝ),
      (emLoop states symbols seqs ε fuel m lastlp).1.priors = m.priors
  | 0, _, _ => rfl
  | fuel + 1, m, lastlp => by
    simp only [emLoop]
    split
    · exact emStep_priors states symbols seqs m
    · show (emLoop states symbols seqs ε fuel (emStep states symbols seqs m).1
          (some (emStepLP states symbols seqs m))).1.priors = m.priors
      rw [emLoop_priors states symbols seqs ε fuel (emStep states symbols seqs m).1 _]
      exact emStep_priors states symbols seqs m

/-- Claim C4: `train_unsupervised` with a seed model returns a model whose
prior distribution assigns to every state (of the trainer's state list,
over which all the model's distributions are keyed) exactly the seed
model's prior probability: the EM loop re-estimates only transitions and
emissions (hmm.py lines 694-705), and the initial mutable wrap (line 617)
copies the seed's priors. -/
theorem train_unsupervised_priors_frame (states : List σ) (symbols : List κ)
    (seqs : List (List κ)) (seed : HMM σ κ) (maxIter : ℕ) (ε : ℝ) (s : σ)
    (hs : s ∈ states) :
    (train_unsupervised states symbols seqs (some seed) maxIter ε).1.priors s
      = seed.priors s := by
  have h2 : (train_unsupervised states symbols seqs (some seed) maxIter ε).1.priors
      = (emInit states symbols (some seed)).priors :=
    emLoop_priors states symbols seqs ε maxIter (emInit states symbols (some seed)) none
  rw [h2]
  show (if s ∈ states then seed.priors s else 0) = seed.priors s
  rw [if_pos hs]

/-- Witness for C4 on the demo model. -/
theorem train_unsupervised_priors_frame_wit :
    (train_unsupervised [0, 1, 2] [0, 1, 2] [[0, 1]] (some demoHMM) 3 1).1.priors 0
      = demoHMM.priors 0 :=
  train_unsupervised_priors_frame [0, 1, 2] [0, 1, 2] [[0, 1]] demoHMM 3 1 0 (by decide)

/-- Full characterisation of the EM loop's iteration count, relative to
the trace of per-iteration log-probabilities: starting the loop at
iteration `j` with `fuel` budget, the count is at most `fuel`; no
iteration before the last ran with the convergence condition true; and a
count below the budget means the last completed iteration triggered the
condition. -/
theorem emLoop_spec (states : List σ) (symbols : List κ) (seqs : List (List κ))
    (ε : ℝ) (m0 : HMM σ κ) :
    ∀ (fuel j : ℕ),
      (emLoop states symbols seqs ε fuel (emModelAt states symbols seqs m0 j)
          (emLast states symbols seqs m0 j)).2 ≤ fuel ∧
      (∀ i : ℕ,
        i + 1 < (emLoop states symbols seqs ε fuel (emModelAt states symbols seqs m0 j)
            (emLast states symbols seqs m0 j)).2 →
          ¬emTrigger states symbols seqs m0 ε (j + i)) ∧
      ((emLoop states symbols seqs ε fuel (emModelAt states symbols seqs m0 j)
          (emLast states symbols seqs m0 j)).2 < fuel →
        emTrigger states symbols seqs m0 ε
            (j + (emLoop states symbols seqs ε fuel (emModelAt states symbols seqs m0 j)
                (emLast states symbols seqs m0 j)).2 - 1) ∧
          0 < (emLoop states symbols seqs ε fuel (emModelAt states symbols seqs m0 j)
              (emLast states symbols seqs m0 j)).2)
  | 0, j => by
    refine ⟨le_refl 0, ?_, ?_⟩
    · intro i hi
      have hi2 : i + 1 < 0 := hi
      exact absurd hi2 (by omega)
    · intro h
      have h2 : (0 : ℕ) < 0 := h
      exact absurd h2 (by omega)
  | fuel + 1, j => by
    have hCiff :
        (match emLast states symbols seqs m0 j with
         | none => False
         | some l =>
           |emStepLP states symbols seqs (emModelAt states symbols seqs m0 j) - l| < ε)
          ↔ emTrigger states symbols seqs m0 ε j := by
      cases j with
      | zero => simp [emLast, emTrigger]
      | succ j' =>
        show (|emLP states symbols seqs m0 (j' + 1) - emLP states symbols seqs m0 j'| < ε)
            ↔ emTrigger states symbols seqs m0 ε (j' + 1)
        exact ⟨fun h => ⟨Nat.succ_pos j', h⟩, fun h => h.2⟩
    by_cases hC :
      (match emLast states symbols seqs m0 j with
       | none => False
       | some l =>
         |emStepLP states symbols seqs (emModelAt states symbols seqs m0 j) - l| < ε)
    · simp only [emLoop, if_pos hC]
      refine ⟨?_, ?_, ?_⟩
      · show 1 ≤ fuel + 1
        omega
      · intro i hi
        have hi2 : i + 1 < 1 := hi
        exact absurd hi2 (by omega)
      · intro _
        refine ⟨?_, ?_⟩
        · show emTrigger states symbols seqs m0 ε (j + 1 - 1)
          have h1 : j + 1 - 1 = j := by omega
          rw [h1]
          exact hCiff.mp hC
        · show 0 < 1
          omega
    · simp only [emLoop, if_neg hC]
      obtain ⟨ih1, ih2, ih3⟩ := emLoop_spec states symbols seqs ε m0 fuel (j + 1)
      refine ⟨?_, ?_, ?_⟩
      · show (emLoop states symbols seqs ε fuel (emModelAt states symbols seqs m0 (j + 1))
            (emLast states symbols seqs m0 (j + 1))).2 + 1 ≤ fuel + 1
        omega
      · intro i hi
        have hi2 : i + 1
            < (emLoop states symbols seqs ε fuel (emModelAt states symbols seqs m0 (j + 1))
                (emLast states symbols seqs m0 (j + 1))).2 + 1 := hi
        cases i with
        | zero =>
          have hnt : ¬emTrigger states symbols seqs m0 ε j := fun ht => hC (hCiff.mpr ht)
          simpa using hnt
        | succ i' =>
          have h2 : i' + 1
              < (emLoop states symbols seqs ε fuel (emModelAt states symbols seqs m0 (j + 1))
                  (emLast states symbols seqs m0 (j + 1))).2 := by omega
          have h3 := ih2 i' h2
          have h4 : j + (i' + 1) = j + 1 + i' := by omega
          rw [h4]
          exact h3
      · intro hlt
        have hlt2 : (emLoop states symbols seqs ε fuel (emModelAt states symbols seqs m0 (j + 1))
            (emLast states symbols seqs m0 (j + 1))).2 + 1 < fuel + 1 := hlt
        have h5 : (emLoop states symbols seqs ε fuel (emModelAt states symbols seqs m0 (j + 1))
            (emLast states symbols seqs m0 (j + 1))).2 < fuel := by omega
        obtain ⟨htr, hpos⟩ := ih3 h5
        refine ⟨?_, ?_⟩
        · show emTrigger states symbols seqs m0 ε
            (j + ((emLoop states symbols seqs ε fuel (emModelAt states symbols seqs m0 (j + 1))
                (emLast states symbols seqs m0 (j + 1))).2 + 1) - 1)
          have h6 : j + ((emLoop states symbols seqs ε fuel
                (emModelAt states symbols seqs m0 (j + 1))
                (emLast states symbols seqs m0 (j + 1))).2 + 1) - 1
              = j + 1 + (emLoop states symbols seqs ε fuel
                  (emModelAt states symbols seqs m0 (j + 1))
                  (emLast states symbols seqs m0 (j + 1))).2 - 1 := by omega
          rw [h6]
          exact htr
        · show 0 < (emLoop states symbols seqs ε fuel
              (emModelAt states symbols seqs m0 (j + 1))
              (emLast states symbols seqs m0 (j + 1))).2 + 1
          omega

/-- Claim C6: `train_unsupervised` performs at most `max_iterations` EM
iterations, and it stops earlier exactly when, after at least one
completed iteration, the absolute difference between the current
iteration's training-set log-probability (computed under the pre-update
parameters, `emLP`) and the previous iteration's is strictly below the
convergence threshold: no earlier iteration pair triggers the test, and
an early stop's last iteration pair does. -/
theorem train_unsupervised_termination (states : List σ) (symbols : List κ)
    (seqs : List (List κ)) (seed : Option (HMM σ κ)) (maxIter : ℕ) (ε : ℝ) :
    (train_unsupervised states symbols seqs seed maxIter ε).2 ≤ maxIter ∧
    (∀ k : ℕ,
      (train_unsupervised states symbols seqs seed maxIter ε).2 ≤ k + 1 ∨ k = 0 ∨
        ε ≤ |emLP states symbols seqs (emInit states symbols seed) k
              - emLP states symbols seqs (emInit states symbols seed) (k - 1)|) ∧
    ((train_unsupervised states symbols seqs seed maxIter ε).2 = maxIter ∨
      (1 < (train_unsupervised states symbols seqs seed maxIter ε).2 ∧
        |emLP states symbols seqs (emInit states symbols seed)
              ((train_unsupervised states symbols seqs seed maxIter ε).2 - 1)
            - emLP states symbols seqs (emInit states symbols seed)
              ((train_unsupervised states symbols seqs seed maxIter ε).2 - 2)| < ε)) := by
  obtain ⟨h1, h2, h3⟩ := emLoop_spec states symbols seqs ε (emInit states symbols seed) maxIter 0
  have hid : emLoop states symbols seqs ε maxIter
      (emModelAt states symbols seqs (emInit states symbols seed) 0)
      (emLast states symbols seqs (emInit states symbols seed) 0)
      = train_unsupervised states symbols seqs seed maxIter ε := rfl
  rw [hid] at h1 h2 h3
  refine ⟨h1, ?_, ?_⟩
  · intro k
    by_cases hk1 : (train_unsupervised states symbols seqs seed maxIter ε).2 ≤ k + 1
    · exact Or.inl hk1
    · by_cases hk0 : k = 0
      · exact Or.inr (Or.inl hk0)
      · refine Or.inr (Or.inr ?_)
        have hnt := h2 k (not_le.mp hk1)
        rw [Nat.zero_add] at hnt
        have hpos : 0 < k := Nat.pos_of_ne_zero hk0
        by_contra hcon
        push_neg at hcon
        exact hnt ⟨hpos, hcon⟩
  · by_cases hm : (train_unsupervised states symbols seqs seed maxIter ε).2 = maxIter
    · exact Or.inl hm
    · refine Or.inr ?_
      have hlt : (train_unsupervised states symbols seqs seed maxIter ε).2 < maxIter :=
        lt_of_le_of_ne h1 hm
      obtain ⟨htr, hpos⟩ := h3 hlt
      rw [Nat.zero_add] at htr
      obtain ⟨hp1, hp2⟩ := htr
      refine ⟨by omega, ?_⟩
      have h7 : (train_unsupervised states symbols seqs seed maxIter ε).2 - 1 - 1
          = (train_unsupervised states symbols seqs seed maxIter ε).2 - 2 := by omega
      rw [← h7]
      exact hp2

/-- After the first token, the start counts are frozen. -/
theorem supSeqAux_starting_some :
    ∀ (toks : List (κ × σ)) (c : SupCounts σ κ) (s0 : σ),
      (supSeqAux c (some s0) toks).starting = c.starting
  | [], _, _ => rfl
  | t :: ts, c, s0 => by
    show (supSeqAux (supToken c (some s0) t) (some t.2) ts).starting = c.starting
    rw [supSeqAux_starting_some ts (supToken c (some s0) t) t.2]
    rfl

/-- One sequence's counting pass adds one start count for its head
label. -/
theorem supSeq_starting (c : SupCounts σ κ) (seq : List (κ × σ)) (s : σ) :
    (supSeq c seq).starting s
      = c.starting s
        + (if (match seq.head? with
               | some tok => decide (tok.2 = s)
               | none => false) = true then 1 else 0) := by
  cases seq with
  | nil => simp [supSeq, supSeqAux]
  | cons t ts =>
    show (supSeqAux (supToken c none t) (some t.2) ts).starting s = _
    rw [supSeqAux_starting_some ts (supToken c none t) t.2]
    show bump c.starting t.2 s = _
    unfold bump
    rw [show (match (t :: ts).head? with
        | some tok => decide (tok.2 = s)
        | none => false) = decide (t.2 = s) from rfl]
    by_cases h : s = t.2
    · rw [if_pos h, decide_eq_true h.symm]
      simp
    · rw [if_neg h, decide_eq_false fun hh => h hh.symm]
      simp

/-- The start counts of the full counting pass are the spec's per-sequence
head-label counts. -/
theorem counts_starting :
    ∀ (data : List (List (κ × σ))) (c : SupCounts σ κ) (s : σ),
      (data.foldl supSeq c).starting s = c.starting s + specStartCount data s
  | [], c, s => by simp [specStartCount]
  | seq :: data, c, s => by
    show (data.foldl supSeq (supSeq c seq)).starting s = _
    rw [counts_starting data (supSeq c seq) s, supSeq_starting c seq s]
    unfold specStartCount
    simp only [List.countP_cons]
    omega

/-- The transition counts accumulated after a first label `s0` are the
adjacent pairs of `s0` followed by the remaining labels. -/
theorem supSeqAux_transitions_some :
    ∀ (toks : List (κ × σ)) (c : SupCounts σ κ) (s0 s s' : σ),
      (supSeqAux c (some s0) toks).transitions s s'
        = c.transitions s s' + adjPairCount s s' (s0 :: toks.map Prod.snd)
  | [], c, s0, s, s' => by
    show c.transitions s s' = c.transitions s s' + adjPairCount s s' [s0]
    rw [show adjPairCount s s' [s0] = 0 from rfl]
    omega
  | t :: ts, c, s0, s, s' => by
    show (supSeqAux (supToken c (some s0) t) (some t.2) ts).transitions s s' = _
    rw [supSeqAux_transitions_some ts (supToken c (some s0) t) t.2 s s']
    show bump2 c.transitions s0 t.2 s s' + adjPairCount s s' (t.2 :: ts.map Prod.snd) = _
    simp only [List.map_cons]
    rw [show adjPairCount s s' (s0 :: t.2 :: ts.map Prod.snd)
        = (if s0 = s ∧ t.2 = s' then 1 else 0)
          + adjPairCount s s' (t.2 :: ts.map Prod.snd) from rfl]
    unfold bump2
    by_cases h : s = s0 ∧ s' = t.2
    · rw [if_pos h, if_pos ⟨h.1.symm, h.2.symm⟩]
      omega
    · rw [if_neg h, if_neg fun hh => h ⟨hh.1.symm, hh.2.symm⟩]
      omega

/-- One sequence's counting pass adds its adjacent label pairs. -/
theorem supSeq_transitions (c : SupCounts σ κ) (seq : List (κ × σ)) (s s' : σ) :
    (supSeq c seq).transitions s s'
      = c.transitions s s' + adjPairCount s s' (seq.map Prod.snd) := by
  cases seq with
  | nil =>
    show c.transitions s s' = c.transitions s s' + adjPairCount s s' []
    rw [show adjPairCount s s' [] = 0 from rfl]
    omega
  | cons t ts =>
    show (supSeqAux (supToken c none t) (some t.2) ts).transitions s s' = _
    rw [supSeqAux_transitions_some ts (supToken c none t) t.2 s s']
    rfl

/-- The transition counts of the full counting pass are the spec's
adjacent-pair counts. -/
theorem counts_transitions :
    ∀ (data : List (List (κ × σ))) (c : SupCounts σ κ) (s s' : σ),
      (data.foldl supSeq c).transitions s s' = c.transitions s s' + specTransCount data s s'
  | [], c, s, s' => by simp [specTransCount]
  | seq :: data, c, s, s' => by
    show (data.foldl supSeq (supSeq c seq)).transitions s s' = _
    rw [counts_transitions data (supSeq c seq) s s', supSeq_transitions c seq s s']
    unfold specTransCount
    simp only [List.map_cons, List.sum_cons]
    omega

/-- The emission counts accumulate one `(state, symbol)` count per
token, regardless of `lasts`. -/
theorem supSeqAux_outputs :
    ∀ (toks : List (κ × σ)) (c : SupCounts σ κ) (lasts : Option σ) (s : σ) (x : κ),
      (supSeqAux c lasts toks).outputs s x
        = c.outputs s x + toks.countP fun tok => decide (tok = (x, s))
  | [], c, lasts, s, x => by simp [supSeqAux]
  | t :: ts, c, lasts, s, x => by
    show (supSeqAux (supToken c lasts t) (some t.2) ts).outputs s x = _
    rw [supSeqAux_outputs ts (supToken c lasts t) (some t.2) s x]
    show bump2 c.outputs t.2 t.1 s x + _ = _
    simp only [List.countP_cons]
    unfold bump2
    by_cases h : s = t.2 ∧ x = t.1
    · rw [if_pos h, decide_eq_true (Prod.ext_iff.mpr ⟨h.2.symm, h.1.symm⟩)]
      simp only [if_true]
      omega
    · rw [if_neg h,
        decide_eq_false fun hh =>
          h ⟨(congrArg Prod.snd hh).symm, (congrArg Prod.fst hh).symm⟩]
      simp

/-- The emission counts of the full counting pass are the spec's token
counts. -/
theorem counts_outputs :
    ∀ (data : List (List (κ × σ))) (c : SupCounts σ κ) (s : σ) (x : κ),
      (data.foldl supSeq c).outputs s x = c.outputs s x + specEmitCount data s x
  | [], c, s, x => by simp [specEmitCount]
  | seq :: data, c, s, x => by
    show (data.foldl supSeq (supSeq c seq)).outputs s x = _
    rw [counts_outputs data (supSeq c seq) s x,
      show supSeq c seq = supSeqAux c none seq from rfl,
      supSeqAux_outputs seq c none s x]
    unfold specEmitCount
    simp only [List.map_cons, List.sum_cons]
    omega

/-- Claim C9: `train_supervised` is a pure function of the trainer's
initial state, the labelled data and the estimator, so two runs on
identical inputs yield identical starting-state, transition and emission
distributions; and its counting pass is exactly the deterministic count
of first labels per sequence, adjacent label pairs and (state, symbol)
token pairs. -/
theorem train_supervised_deterministic :
    (∀ (states0 : List σ) (symbols0 : List κ) (data : List (List (κ × σ)))
        (estS : (σ → ℕ) → ℕ → σ → ℚ) (estK : (κ → ℕ) → ℕ → κ → ℚ),
      train_supervised states0 symbols0 data estS estK
        = train_supervised states0 symbols0 data estS estK) ∧
    (∀ (states0 : List σ) (symbols0 : List κ) (data : List (List (κ × σ))) (s : σ),
      (supervisedCounts states0 symbols0 data).starting s = specStartCount data s) ∧
    (∀ (states0 : List σ) (symbols0 : List κ) (data : List (List (κ × σ))) (s s' : σ),
      (supervisedCounts states0 symbols0 data).transitions s s' = specTransCount data s s') ∧
    (∀ (states0 : List σ) (symbols0 : List κ) (data : List (List (κ × σ))) (s : σ) (x : κ),
      (supervisedCounts states0 symbols0 data).outputs s x = specEmitCount data s x) := by
  refine ⟨fun _ _ _ _ _ => rfl, ?_, ?_, ?_⟩
  · intro states0 symbols0 data s
    rw [show (supervisedCounts states0 symbols0 data).starting s
        = (data.foldl supSeq
            { starting := fun _ => 0, transitions := fun _ _ => 0, outputs := fun _ _ => 0,
              states := states0, symbols := symbols0 }).starting s from rfl,
      counts_starting]
    show 0 + specStartCount data s = _
    omega
  · intro states0 symbols0 data s s'
    rw [show (supervisedCounts states0 symbols0 data).transitions s s'
        = (data.foldl supSeq
            { starting := fun _ => 0, transitions := fun _ _ => 0, outputs := fun _ _ => 0,
              states := states0, symbols := symbols0 }).transitions s s' from rfl,
      counts_transitions]
    show 0 + specTransCount data s s' = _
    omega
  · intro states0 symbols0 data s x
    rw [show (supervisedCounts states0 symbols0 data).outputs s x
        = (data.foldl supSeq
            { starting := fun _ => 0, transitions := fun _ _ => 0, outputs := fun _ _ => 0,
              states := states0, symbols := symbols0 }).outputs s x from rfl,
      counts_outputs]
    show 0 + specEmitCount data s x = _
    omega
